import Mathlib

/-!
Verification of the tile-rearrangement qualifier (`src/qualifier/qualifier.py`).

The program is shallowly embedded:

* An image (`Img`) is its width, height, color mode and a total pixel
  function; PIL's `crop`, `paste`, `Image.new` become the corresponding
  operations on `Img`.
* Python `int` arithmetic is `Int` with `Int.fdiv` / `Int.fmod`
  (Python's floor division and sign-of-divisor modulo).
* Python runtime faults (`ZeroDivisionError`, `IndexError`) and the
  `ValueError` raised by `rearrange_tiles` are modelled with `Except PyErr`.
* Python list subscription `l[i]` (negative indices wrap, out-of-range
  raises `IndexError`) is `pyGet`.
-/

/-- An in-memory image: dimensions, color mode and a total pixel function.
Pixels are read as `pixel x y` with `x < width`, `y < height`. -/
structure Img where
  width : Nat
  height : Nat
  mode : String
  pixel : Nat → Nat → Nat

/-- Reading a pixel at possibly out-of-range integer coordinates:
outside the image the value is 0 (PIL fills cropped regions that fall
outside the source with black). -/
def Img.getpixel (img : Img) (x y : Int) : Nat :=
  if 0 ≤ x ∧ x < (img.width : Int) ∧ 0 ≤ y ∧ y < (img.height : Int) then
    img.pixel x.toNat y.toNat
  else 0

/-- `img.crop (left, top, right, bottom)`: the new image has size
`(right - left, bottom - top)` and pixel `(x, y)` reads the source at
`(left + x, top + y)`. -/
def Img.crop (img : Img) (left top right bottom : Int) : Img :=
  { width := (right - left).toNat
    height := (bottom - top).toNat
    mode := img.mode
    pixel := fun x y => img.getpixel (left + x) (top + y) }

/-- `canvas.paste tile (px, py)`: pixels inside the pasted rectangle come
from the tile, all others are unchanged. -/
def Img.paste (canvas tile : Img) (px py : Int) : Img :=
  { canvas with
    pixel := fun x y =>
      if px ≤ (x : Int) ∧ (x : Int) < px + (tile.width : Int) ∧
          py ≤ (y : Int) ∧ (y : Int) < py + (tile.height : Int) then
        tile.pixel ((x : Int) - px).toNat ((y : Int) - py).toNat
      else canvas.pixel x y }

/-- `Image.new(mode, size)`: a blank (all-zero) canvas. -/
def Image.new (mode : String) (width height : Nat) : Img :=
  { width := width, height := height, mode := mode, pixel := fun _ _ => 0 }

/-- Pixel-for-pixel equality of two images: same dimensions, same mode,
and equal pixel values everywhere inside the shared domain. -/
def Img.pixEq (a b : Img) : Prop :=
  a.width = b.width ∧ a.height = b.height ∧ a.mode = b.mode ∧
    ∀ x y, x < a.width → y < a.height → a.pixel x y = b.pixel x y

/-- The Python runtime errors the program can surface: the `ValueError`
raised explicitly by `rearrange_tiles`, `IndexError` from list
subscription, and `ZeroDivisionError` from `//` or `%` by zero. -/
inductive PyErr where
  | valueError (msg : String)
  | indexError
  | zeroDivisionError
deriving DecidableEq

/-- The message an error carries (Python's standard texts for the
runtime faults). -/
def PyErr.msg : PyErr → String
  | .valueError m => m
  | .indexError => "list index out of range"
  | .zeroDivisionError => "integer division or modulo by zero"

instance {ε α : Type} [DecidableEq ε] [DecidableEq α] : DecidableEq (Except ε α) := fun a b =>
  match a, b with
  | .ok x, .ok y =>
    if h : x = y then isTrue (congrArg Except.ok h)
    else isFalse fun hh => h (Except.ok.inj hh)
  | .error x, .error y =>
    if h : x = y then isTrue (congrArg Except.error h)
    else isFalse fun hh => h (Except.error.inj hh)
  | .ok _, .error _ => isFalse fun hh => Except.noConfusion hh
  | .error _, .ok _ => isFalse fun hh => Except.noConfusion hh

/-- The effective index of Python list subscription: negative indices
count from the end. -/
def pyIdx (len : Nat) (i : Int) : Int :=
  if i < 0 then i + len else i

/-- Python list subscription `l[i]`: wraps negative indices, raises
`IndexError` when the effective index is out of range. -/
def pyGet {α : Type} (l : List α) (i : Int) : Except PyErr α :=
  if 0 ≤ pyIdx l.length i then
    match l[(pyIdx l.length i).toNat]? with
    | some a => .ok a
    | none => .error .indexError
  else .error .indexError

/-- `valid_input(image_size, tile_size, ordering)` from
`src/qualifier/qualifier.py`.  `image_size` is `(width, height)`.
The divisions computing `R` and `C` happen before the two checks, so a
zero tile dimension raises `ZeroDivisionError` (line 21 divides by
`tile_size[1]`, line 22 by `tile_size[0]`).  `len(set(ordering))` is
`ordering.dedup.length`. -/
def valid_input (image_size : Int × Int) (tile_size : Int × Int)
    (ordering : List Int) : Except PyErr Bool :=
  if tile_size.2 = 0 ∨ tile_size.1 = 0 then .error .zeroDivisionError
  else
    let R := Int.fdiv image_size.2 tile_size.2
    let C := Int.fdiv image_size.1 tile_size.1
    let tile_count := R * C
    let can_split := decide (Int.fmod image_size.1 tile_size.1 = 0) &&
      decide (Int.fmod image_size.2 tile_size.2 = 0)
    let can_order := decide (ordering.dedup.length = ordering.length) &&
      decide ((ordering.length : Int) = tile_count)
    .ok (can_split && can_order)

/-- The tile-extraction double loop of `rearrange_tiles` (lines 56-65):
for `r` in `range(R)`, for `c` in `range(C)`, crop the rectangle with
`left = c*tW`, `top = r*tH`, `right = left+tW`, `bottom = top+tH`. -/
def extractTiles (img : Img) (tW tH : Int) (R C : Nat) : List Img :=
  (List.range R).flatMap fun (r : Nat) =>
    (List.range C).map fun (c : Nat) =>
      img.crop ((c : Int) * tW) ((r : Int) * tH)
        ((c : Int) * tW + tW) ((r : Int) * tH + tH)

/-- The destination grid positions `(r, c)` visited by the stitching
double loop, in loop order. -/
def destPositions (R C : Nat) : List (Nat × Nat) :=
  (List.range R).flatMap fun r => (List.range C).map fun c => (r, c)

/-- The stitching loop of `rearrange_tiles` (lines 70-74): at each
destination position `(r, c)` with flat index `i = r*C + c`, if
`i < len(tiles)`, paste `tiles[ordering[i]]` at `(c*tW, r*tH)`.
Both subscriptions follow Python semantics (`pyGet`); a raised
`IndexError` aborts the loop. -/
def stitch (tiles : List Img) (ordering : List Int) (tW tH : Int) (C : Nat) :
    Img → List (Nat × Nat) → Except PyErr Img
  | canvas, [] => .ok canvas
  | canvas, (r, c) :: rest =>
    if r * C + c < tiles.length then
      match pyGet ordering ((r * C + c : Nat) : Int) with
      | .error e => .error e
      | .ok idx =>
        match pyGet tiles idx with
        | .error e => .error e
        | .ok tile =>
          stitch tiles ordering tW tH C
            (canvas.paste tile ((c : Int) * tW) ((r : Int) * tH)) rest
    else stitch tiles ordering tW tH C canvas rest

/-- `rearrange_tiles` from `src/qualifier/qualifier.py`, as the pure
transformation of the opened image (file decoding/encoding is the
external collaborator).  Validation failure raises the `ValueError`
of line 44; otherwise the image is sliced, permuted and stitched.
Python's `range(R)` on a negative `R` is empty, hence `Int.toNat`. -/
def rearrange_tiles (img : Img) (tile_size : Int × Int)
    (ordering : List Int) : Except PyErr Img :=
  match valid_input ((img.width : Int), (img.height : Int)) tile_size ordering with
  | .error e => .error e
  | .ok ok =>
    if ok = false then
      .error (.valueError "The tile size or ordering are not valid for the given image")
    else
      let tW := tile_size.1
      let tH := tile_size.2
      let R := Int.fdiv (img.height : Int) tH
      let C := Int.fdiv (img.width : Int) tW
      let tiles := extractTiles img tW tH R.toNat C.toNat
      let canvas := Image.new img.mode img.width img.height
      stitch tiles ordering tW tH C.toNat canvas (destPositions R.toNat C.toNat)

/-- The fixed validation message of line 44. -/
def validationMsg : String :=
  "The tile size or ordering are not valid for the given image"

/-- The file writes `rearrange_tiles` performs: `output.save(out_path)`
runs only when no error was raised, so exactly one file is written on
success and none on any failure path. -/
def rearrange_tiles_writes (img : Img) (tile_size : Int × Int)
    (ordering : List Int) (out_path : String) : List (String × Img) :=
  match rearrange_tiles img tile_size ordering with
  | .ok out => [(out_path, out)]
  | .error _ => []

/-- The indices at which the stitching loop subscripts the `tiles` list,
in evaluation order, mirroring `stitch`: an index whose subscription
raises `IndexError` is still recorded (the access is attempted) but
aborts the loop; a wrapped negative index succeeds and the loop goes
on. -/
def stitchAccesses (C tLen : Nat) (ordering : List Int) :
    List (Nat × Nat) → List Int
  | [] => []
  | (r, c) :: rest =>
    if r * C + c < tLen then
      match pyGet ordering ((r * C + c : Nat) : Int) with
      | .error _ => []
      | .ok idx =>
        if 0 ≤ pyIdx tLen idx ∧ pyIdx tLen idx < (tLen : Int) then
          idx :: stitchAccesses C tLen ordering rest
        else [idx]
    else stitchAccesses C tLen ordering rest

/-- The indices at which the reassembly phase of `rearrange_tiles`
subscripts the extracted tile sequence, with the same `R`, `C` and tile
list as `rearrange_tiles` itself. -/
def reassemblyTileAccesses (img : Img) (tile_size : Int × Int)
    (ordering : List Int) : List Int :=
  let tW := tile_size.1
  let tH := tile_size.2
  let R := Int.fdiv (img.height : Int) tH
  let C := Int.fdiv (img.width : Int) tW
  let tiles := extractTiles img tW tH R.toNat C.toNat
  stitchAccesses C.toNat tiles.length ordering (destPositions R.toNat C.toNat)

/-- The identity ordering `[0, 1, ..., n-1]`. -/
def identityOrdering (n : Nat) : List Int :=
  (List.range n).map fun (i : Nat) => (i : Int)

/-- Pointwise composition of orderings: `(composeOrderings f g)[i] =
f[g[i]]`, i.e. `f` applied after `g`. -/
def composeOrderings (f g : List Int) : List Int :=
  g.map fun j => f.getD j.toNat 0

/-- The totalised stitching loop used to reason about the success path:
when every subscription is in range, `stitch` computes exactly this
fold of pastes (`stitch_eq_pure` below). -/
def stitchPure (tiles : List Img) (ordering : List Int) (tW tH : Int) (C : Nat) :
    Img → List (Nat × Nat) → Img
  | canvas, [] => canvas
  | canvas, (r, c) :: rest =>
    let tile := tiles.getD (ordering.getD (r * C + c) 0).toNat (Image.new "" 0 0)
    stitchPure tiles ordering tW tH C
      (canvas.paste tile ((c : Int) * tW) ((r : Int) * tH)) rest

/-! ## Basic lemmas about the embedded primitives -/

/-- `len(set(l)) == len(l)` is exactly the no-duplicates condition. -/
lemma dedup_length_iff (l : List Int) : l.dedup.length = l.length ↔ l.Nodup := by
  constructor
  · intro h
    have he := (List.dedup_sublist l).eq_of_length h
    rw [← he]
    exact l.nodup_dedup
  · intro h
    rw [List.dedup_eq_self.mpr h]

/-- Subscription at an in-range nonnegative integer index succeeds. -/
lemma pyGet_int_ok {α : Type} (l : List α) (j : Int) (d : α)
    (h0 : 0 ≤ j) (h1 : j < (l.length : Int)) :
    pyGet l j = .ok (l.getD j.toNat d) := by
  have hp : pyIdx l.length j = j := if_neg (by omega)
  have hlt : j.toNat < l.length := by omega
  simp [pyGet, hp, h0, List.getElem?_eq_getElem hlt, List.getD_eq_getElem _ _ hlt]

/-- Subscription at an in-range natural index succeeds. -/
lemma pyGet_nat {α : Type} (l : List α) (i : Nat) (d : α) (h : i < l.length) :
    pyGet l ((i : Nat) : Int) = .ok (l.getD i d) := by
  have := pyGet_int_ok l (i : Int) d (by omega) (by omega)
  simpa using this

/-- Subscription outside `[-len, len)` raises `IndexError`. -/
lemma pyGet_err {α : Type} (l : List α) (j : Int)
    (h : (l.length : Int) ≤ j ∨ j < -(l.length : Int)) :
    pyGet l j = .error .indexError := by
  rcases h with h | h
  · have hp : pyIdx l.length j = j := if_neg (by omega)
    have hge : l.length ≤ j.toNat := by omega
    simp [pyGet, hp, List.getElem?_eq_none hge, show (0:Int) ≤ j by omega]
  · have hp : pyIdx l.length j = j + l.length := if_pos (by omega)
    simp [pyGet, hp, show ¬ (0:Int) ≤ j + (l.length : Int) by omega]

/-- The only error `pyGet` raises is `IndexError`. -/
lemma pyGet_error_eq {α : Type} (l : List α) (i : Int) (e : PyErr)
    (h : pyGet l i = .error e) : e = .indexError := by
  unfold pyGet at h
  split at h
  · split at h <;> simp_all
  · simp_all

/-- Flattening a double loop over `range R` and `range C` into a single
loop over `range (R*C)` of flat indices. -/
lemma flatMap_range_eq {α : Type} (R C : Nat) (f : Nat → Nat → α) :
    ((List.range R).flatMap fun r => (List.range C).map fun c => f r c) =
      (List.range (R * C)).map fun i => f (i / C) (i % C) := by
  induction R with
  | zero => simp
  | succ n ih =>
    rw [List.range_succ, List.flatMap_append, ih, Nat.succ_mul, List.range_add,
      List.map_append, List.map_map]
    simp only [List.flatMap_cons, List.flatMap_nil, List.append_nil]
    congr 1
    apply List.map_congr_left
    intro c hc
    have hc' : c < C := List.mem_range.mp hc
    have h1 : (n * C + c) / C = n := by
      rw [Nat.mul_comm n C, Nat.mul_add_div (by omega), Nat.div_eq_of_lt hc']
      omega
    have h2 : (n * C + c) % C = c := by
      rw [Nat.mul_comm n C, Nat.mul_add_mod, Nat.mod_eq_of_lt hc']
    simp [Function.comp, h1, h2]

lemma destPositions_eq (R C : Nat) :
    destPositions R C = (List.range (R * C)).map fun i => (i / C, i % C) :=
  flatMap_range_eq R C fun r c => (r, c)

lemma destPositions_length (R C : Nat) : (destPositions R C).length = R * C := by
  rw [destPositions_eq]; simp

lemma mem_destPositions (R C : Nat) (p : Nat × Nat) :
    p ∈ destPositions R C ↔ p.1 < R ∧ p.2 < C := by
  unfold destPositions
  simp only [List.mem_flatMap, List.mem_map, List.mem_range]
  constructor
  · rintro ⟨r, hr, c, hc, rfl⟩
    exact ⟨hr, hc⟩
  · rintro ⟨h1, h2⟩
    exact ⟨p.1, h1, p.2, h2, rfl⟩

lemma destPositions_nodup (R C : Nat) : (destPositions R C).Nodup := by
  rw [destPositions_eq]
  refine List.Nodup.map_on ?_ (List.nodup_range _)
  intro x hx y hy hxy
  have h1 : x / C = y / C := congrArg Prod.fst hxy
  have h2 : x % C = y % C := congrArg Prod.snd hxy
  calc x = C * (x / C) + x % C := (Nat.div_add_mod x C).symm
    _ = C * (y / C) + y % C := by rw [h1, h2]
    _ = y := Nat.div_add_mod y C

lemma extractTiles_eq (img : Img) (tW tH : Int) (R C : Nat) :
    extractTiles img tW tH R C = (List.range (R * C)).map fun i =>
      img.crop (((i % C : Nat) : Int) * tW) (((i / C : Nat) : Int) * tH)
        (((i % C : Nat) : Int) * tW + tW) (((i / C : Nat) : Int) * tH + tH) := by
  unfold extractTiles
  exact flatMap_range_eq R C fun r c =>
    img.crop ((c : Int) * tW) ((r : Int) * tH) ((c : Int) * tW + tW) ((r : Int) * tH + tH)

lemma extractTiles_length (img : Img) (tW tH : Int) (R C : Nat) :
    (extractTiles img tW tH R C).length = R * C := by
  rw [extractTiles_eq]; simp

lemma extractTiles_getD (img : Img) (tW tH : Int) (R C : Nat) (i : Nat)
    (h : i < R * C) (d : Img) :
    (extractTiles img tW tH R C).getD i d =
      img.crop (((i % C : Nat) : Int) * tW) (((i / C : Nat) : Int) * tH)
        (((i % C : Nat) : Int) * tW + tW) (((i / C : Nat) : Int) * tH + tH) := by
  rw [extractTiles_eq]
  rw [List.getD_eq_getElem _ _ (by simpa using h)]
  simp

/-- Every extracted tile has the tile dimensions. -/
lemma extractTiles_dims (img : Img) (tW tH : Int) (R C : Nat) :
    ∀ t ∈ extractTiles img tW tH R C, t.width = tW.toNat ∧ t.height = tH.toNat := by
  intro t ht
  rw [extractTiles_eq] at ht
  obtain ⟨i, _, rfl⟩ := List.mem_map.mp ht
  constructor
  · show (((i % C : Nat) : Int) * tW + tW - ((i % C : Nat) : Int) * tW).toNat = tW.toNat
    congr 1
    ring
  · show (((i / C : Nat) : Int) * tH + tH - ((i / C : Nat) : Int) * tH).toNat = tH.toNat
    congr 1
    ring

lemma grid_index_lt {r c R C : Nat} (hr : r < R) (hc : c < C) : r * C + c < R * C :=
  calc r * C + c < r * C + C := by omega
    _ = (r + 1) * C := by ring
    _ ≤ R * C := Nat.mul_le_mul_right C hr

/-- A pixel column `c*t + dx` (with `dx < t`) lies in the pasted column
range of grid column `cx` only when `cx = c`. -/
lemma grid_cover_unique {t c cx dx : Nat} (hdx : dx < t)
    (h1 : cx * t ≤ c * t + dx) (h2 : c * t + dx < cx * t + t) : cx = c := by
  have e1 : (c + 1) * t = c * t + t := by ring
  have e2 : (cx + 1) * t = cx * t + t := by ring
  have ha : cx * t < (c + 1) * t :=
    lt_of_le_of_lt h1 (e1 ▸ Nat.add_lt_add_left hdx (c * t))
  have hb : c * t < (cx + 1) * t :=
    lt_of_le_of_lt (Nat.le_add_right _ _) (e2 ▸ h2)
  have hA : cx < c + 1 := lt_of_mul_lt_mul_right ha (Nat.zero_le t)
  have hB : c < cx + 1 := lt_of_mul_lt_mul_right hb (Nat.zero_le t)
  omega

/-! ## Lemmas about pasting and stitching -/

lemma paste_pixel_out (canvas tile : Img) (px py : Int) (x y : Nat)
    (h : ¬ (px ≤ (x : Int) ∧ (x : Int) < px + (tile.width : Int) ∧
        py ≤ (y : Int) ∧ (y : Int) < py + (tile.height : Int))) :
    (canvas.paste tile px py).pixel x y = canvas.pixel x y := by
  simp only [Img.paste]
  rw [if_neg h]

lemma paste_pixel_in (canvas tile : Img) (px py : Int) (x y : Nat)
    (h : px ≤ (x : Int) ∧ (x : Int) < px + (tile.width : Int) ∧
        py ≤ (y : Int) ∧ (y : Int) < py + (tile.height : Int)) :
    (canvas.paste tile px py).pixel x y =
      tile.pixel ((x : Int) - px).toNat ((y : Int) - py).toNat := by
  simp only [Img.paste]
  rw [if_pos h]

lemma paste_width (canvas tile : Img) (px py : Int) :
    (canvas.paste tile px py).width = canvas.width := rfl

lemma paste_height (canvas tile : Img) (px py : Int) :
    (canvas.paste tile px py).height = canvas.height := rfl

lemma paste_mode (canvas tile : Img) (px py : Int) :
    (canvas.paste tile px py).mode = canvas.mode := rfl

/-- The tile fetched with `getD` either comes from the list (and then
has the common tile dimensions) or is the zero-sized default. -/
lemma getD_tile_dims (tiles : List Img) (twn thn : Nat)
    (htiles : ∀ t ∈ tiles, t.width = twn ∧ t.height = thn) (j : Nat) :
    ((tiles.getD j (Image.new "" 0 0)).width = twn ∧
      (tiles.getD j (Image.new "" 0 0)).height = thn) ∨
    ((tiles.getD j (Image.new "" 0 0)).width = 0 ∧
      (tiles.getD j (Image.new "" 0 0)).height = 0) := by
  by_cases h : j < tiles.length
  · left
    rw [List.getD_eq_getElem _ _ h]
    exact htiles _ (List.getElem_mem h)
  · right
    rw [List.getD_eq_default _ _ (by omega)]
    exact ⟨rfl, rfl⟩

/-- Stitching never changes the canvas dimensions or mode. -/
lemma stitch_dims (tiles : List Img) (ordering : List Int) (tW tH : Int) (C : Nat) :
    ∀ (ps : List (Nat × Nat)) (canvas out : Img),
      stitch tiles ordering tW tH C canvas ps = .ok out →
      out.width = canvas.width ∧ out.height = canvas.height ∧ out.mode = canvas.mode
  | [], canvas, out, h => by
    simp only [stitch, Except.ok.injEq] at h
    rw [← h]
    exact ⟨rfl, rfl, rfl⟩
  | (r, c) :: rest, canvas, out, h => by
    rw [stitch] at h
    by_cases hi : r * C + c < tiles.length
    · rw [if_pos hi] at h
      cases hg : pyGet ordering ((r * C + c : Nat) : Int) with
      | error e => simp only [hg] at h; exact Except.noConfusion h
      | ok idx =>
        simp only [hg] at h
        cases ht : pyGet tiles idx with
        | error e => simp only [ht] at h; exact Except.noConfusion h
        | ok tile =>
          simp only [ht] at h
          have ih := stitch_dims tiles ordering tW tH C rest _ out h
          simpa [paste_width, paste_height, paste_mode] using ih
    · rw [if_neg hi] at h
      exact stitch_dims tiles ordering tW tH C rest canvas out h

/-- The only error the stitching loop raises is `IndexError` (from one
of the two subscriptions). -/
lemma stitch_error_eq (tiles : List Img) (ordering : List Int) (tW tH : Int) (C : Nat) :
    ∀ (ps : List (Nat × Nat)) (canvas : Img) (e : PyErr),
      stitch tiles ordering tW tH C canvas ps = .error e → e = .indexError
  | [], canvas, e, h => by simp [stitch] at h
  | (r, c) :: rest, canvas, e, h => by
    rw [stitch] at h
    by_cases hi : r * C + c < tiles.length
    · rw [if_pos hi] at h
      cases hg : pyGet ordering ((r * C + c : Nat) : Int) with
      | error e2 =>
        simp only [hg, Except.error.injEq] at h
        rw [← h]
        exact pyGet_error_eq _ _ _ hg
      | ok idx =>
        simp only [hg] at h
        cases ht : pyGet tiles idx with
        | error e2 =>
          simp only [ht, Except.error.injEq] at h
          rw [← h]
          exact pyGet_error_eq _ _ _ ht
        | ok tile =>
          simp only [ht] at h
          exact stitch_error_eq tiles ordering tW tH C rest _ e h
    · rw [if_neg hi] at h
      exact stitch_error_eq tiles ordering tW tH C rest canvas e h

/-- When every subscription of the loop is in range, `stitch` succeeds
and computes the pure fold of pastes. -/
lemma stitch_eq_pure (tiles : List Img) (ordering : List Int) (tW tH : Int) (C : Nat) :
    ∀ (ps : List (Nat × Nat)) (canvas : Img),
      (∀ p ∈ ps, p.1 * C + p.2 < tiles.length ∧ p.1 * C + p.2 < ordering.length ∧
        0 ≤ ordering.getD (p.1 * C + p.2) 0 ∧
        ordering.getD (p.1 * C + p.2) 0 < (tiles.length : Int)) →
      stitch tiles ordering tW tH C canvas ps =
        .ok (stitchPure tiles ordering tW tH C canvas ps)
  | [], canvas, _ => by simp [stitch, stitchPure]
  | (r, c) :: rest, canvas, hacc => by
    obtain ⟨h1, h2, h3, h4⟩ := hacc (r, c) (List.mem_cons_self _ _)
    have hrest := fun p hp => hacc p (List.mem_cons_of_mem _ hp)
    simp only [stitch, stitchPure, if_pos h1, pyGet_nat ordering (r * C + c) 0 h2,
      pyGet_int_ok tiles _ (Image.new "" 0 0) h3 h4]
    exact stitch_eq_pure tiles ordering tW tH C rest _ hrest

lemma stitchPure_dims (tiles : List Img) (ordering : List Int) (tW tH : Int) (C : Nat) :
    ∀ (ps : List (Nat × Nat)) (canvas : Img),
      (stitchPure tiles ordering tW tH C canvas ps).width = canvas.width ∧
      (stitchPure tiles ordering tW tH C canvas ps).height = canvas.height ∧
      (stitchPure tiles ordering tW tH C canvas ps).mode = canvas.mode
  | [], canvas => ⟨rfl, rfl, rfl⟩
  | (r, c) :: rest, canvas => by
    rw [stitchPure]
    have ih := stitchPure_dims tiles ordering tW tH C rest
      (canvas.paste (tiles.getD (ordering.getD (r * C + c) 0).toNat (Image.new "" 0 0))
        ((c : Int) * tW) ((r : Int) * tH))
    simpa [paste_width, paste_height, paste_mode] using ih

/-- A pixel covered by none of the remaining grid positions is left
unchanged by the pure stitching fold. -/
lemma stitchPure_frame (tiles : List Img) (ordering : List Int) (tW tH : Int) (C : Nat)
    (twn thn : Nat) (htw : tW = (twn : Int)) (hth : tH = (thn : Int))
    (htiles : ∀ t ∈ tiles, t.width = twn ∧ t.height = thn) (x y : Nat) :
    ∀ (ps : List (Nat × Nat)) (canvas : Img),
      (∀ p ∈ ps, ¬ (p.2 * twn ≤ x ∧ x < p.2 * twn + twn ∧
        p.1 * thn ≤ y ∧ y < p.1 * thn + thn)) →
      (stitchPure tiles ordering tW tH C canvas ps).pixel x y = canvas.pixel x y
  | [], canvas, _ => rfl
  | (r, c) :: rest, canvas, hnc => by
    rw [stitchPure]
    rw [stitchPure_frame tiles ordering tW tH C twn thn htw hth htiles x y rest _
      (fun p hp => hnc p (List.mem_cons_of_mem _ hp))]
    apply paste_pixel_out
    rcases getD_tile_dims tiles twn thn htiles (ordering.getD (r * C + c) 0).toNat with
      ⟨hw, hh⟩ | ⟨hw, hh⟩
    · rw [hw, hh, htw, hth]
      have hnc0 := hnc (r, c) (List.mem_cons_self _ _)
      simp only at hnc0
      intro hcontra
      apply hnc0
      constructor
      · have := hcontra.1
        push_cast at this ⊢
        exact_mod_cast this
      refine ⟨?_, ?_, ?_⟩
      · have := hcontra.2.1
        exact_mod_cast this
      · have := hcontra.2.2.1
        exact_mod_cast this
      · have := hcontra.2.2.2
        exact_mod_cast this
    · rw [hw, hh]
      intro hcontra
      have h1 := hcontra.1
      have h2 := hcontra.2.1
      omega

/-- Central pixel lemma: after the pure stitching fold over a duplicate-free
position list containing `(rr, cc)`, the pixel at offset `(dx, dy)` inside
destination rectangle `(rr, cc)` is the corresponding pixel of the tile the
ordering assigns to that position. -/
lemma stitchPure_pixel (tiles : List Img) (ordering : List Int) (tW tH : Int) (C : Nat)
    (twn thn : Nat) (htw : tW = (twn : Int)) (hth : tH = (thn : Int))
    (htiles : ∀ t ∈ tiles, t.width = twn ∧ t.height = thn)
    (rr cc dx dy : Nat) (hdx : dx < twn) (hdy : dy < thn)
    (hj : (ordering.getD (rr * C + cc) 0).toNat < tiles.length) :
    ∀ (ps : List (Nat × Nat)) (canvas : Img), (rr, cc) ∈ ps → ps.Nodup →
      (stitchPure tiles ordering tW tH C canvas ps).pixel (cc * twn + dx) (rr * thn + dy) =
        (tiles.getD (ordering.getD (rr * C + cc) 0).toNat (Image.new "" 0 0)).pixel dx dy
  | [], _, hmem, _ => absurd hmem (List.not_mem_nil _)
  | (r, c) :: rest, canvas, hmem, hnd => by
    obtain ⟨hhead, hndrest⟩ := List.nodup_cons.mp hnd
    by_cases hpc : (r, c) = (rr, cc)
    · obtain ⟨rfl, rfl⟩ := Prod.mk.inj hpc
      rw [stitchPure]
      have htile : tiles.getD (ordering.getD (r * C + c) 0).toNat (Image.new "" 0 0) ∈ tiles := by
        rw [List.getD_eq_getElem _ _ hj]
        exact List.getElem_mem hj
      obtain ⟨hwid, hhei⟩ := htiles _ htile
      have hfr : ∀ p ∈ rest, ¬ (p.2 * twn ≤ c * twn + dx ∧ c * twn + dx < p.2 * twn + twn ∧
          p.1 * thn ≤ r * thn + dy ∧ r * thn + dy < p.1 * thn + thn) := by
        rintro ⟨pr, pc⟩ hp ⟨hc1, hc2, hr1, hr2⟩
        have hceq : pc = c := grid_cover_unique hdx hc1 hc2
        have hreq : pr = r := grid_cover_unique hdy hr1 hr2
        rw [hceq, hreq] at hp
        exact hhead hp
      rw [stitchPure_frame tiles ordering tW tH C twn thn htw hth htiles _ _ rest _ hfr]
      rw [paste_pixel_in]
      · have hxint : (((c * twn + dx : Nat) : Int) - (c : Int) * tW) = (dx : Int) := by
          rw [htw]
          push_cast
          ring
        have hyint : (((r * thn + dy : Nat) : Int) - (r : Int) * tH) = (dy : Int) := by
          rw [hth]
          push_cast
          ring
        rw [hxint, hyint]
        simp
      · rw [hwid, hhei, htw, hth]
        push_cast
        refine ⟨le_add_of_nonneg_right (by positivity), ?_, le_add_of_nonneg_right (by positivity), ?_⟩
        · have : (dx : Int) < (twn : Int) := by exact_mod_cast hdx
          linarith
        · have : (dy : Int) < (thn : Int) := by exact_mod_cast hdy
          linarith
    · have hmem2 : (rr, cc) ∈ rest := (List.mem_cons.mp hmem).resolve_left fun h => hpc h.symm
      rw [stitchPure]
      exact stitchPure_pixel tiles ordering tW tH C twn thn htw hth htiles rr cc dx dy
        hdx hdy hj rest _ hmem2 hndrest

/-! ## Characterising valid_input -/

/-- With nonzero tile dimensions, `valid_input` returns `ok true` exactly
when both divisibility checks pass, the ordering has no duplicates, and
its length equals the tile count `R*C`. -/
lemma valid_input_ok_iff (W H tw th : Int) (ord : List Int)
    (htw : tw ≠ 0) (hth : th ≠ 0) :
    valid_input (W, H) (tw, th) ord = .ok true ↔
      (W.fmod tw = 0 ∧ H.fmod th = 0 ∧ ord.Nodup ∧
        (ord.length : Int) = H.fdiv th * W.fdiv tw) := by
  unfold valid_input
  rw [if_neg (by simp [htw, hth])]
  simp only [Except.ok.injEq, Bool.and_eq_true, decide_eq_true_eq]
  rw [dedup_length_iff]
  tauto

/-- With nonzero tile dimensions, `valid_input` never raises. -/
lemma valid_input_ok_exists (W H tw th : Int) (ord : List Int)
    (htw : tw ≠ 0) (hth : th ≠ 0) :
    ∃ b, valid_input (W, H) (tw, th) ord = .ok b := by
  unfold valid_input
  rw [if_neg (by simp [htw, hth])]
  exact ⟨_, rfl⟩

/-- A zero tile dimension raises `ZeroDivisionError` before any check. -/
lemma valid_input_zero (sz ts : Int × Int) (ord : List Int)
    (h : ts.1 = 0 ∨ ts.2 = 0) :
    valid_input sz ts ord = .error .zeroDivisionError := by
  unfold valid_input
  rw [if_pos (by tauto)]

lemma natMul_fdiv (n : Nat) (t : Int) (ht : 0 < t) :
    ((n * t.toNat : Nat) : Int).fdiv t = (n : Int) := by
  have h : ((n * t.toNat : Nat) : Int) = (n : Int) * t := by
    rw [Nat.cast_mul, Int.toNat_of_nonneg ht.le]
  rw [h, Int.fdiv_eq_ediv _ ht.le, Int.mul_ediv_cancel _ (by omega)]

lemma natMul_fmod (n : Nat) (t : Int) (ht : 0 < t) :
    ((n * t.toNat : Nat) : Int).fmod t = 0 := by
  have h : ((n * t.toNat : Nat) : Int) = (n : Int) * t := by
    rw [Nat.cast_mul, Int.toNat_of_nonneg ht.le]
  rw [h, Int.fmod_eq_emod _ ht.le, Int.mul_emod_left]

lemma getpixel_natCast (img : Img) (x y : Nat) (hx : x < img.width) (hy : y < img.height) :
    img.getpixel ((x : Nat) : Int) ((y : Nat) : Int) = img.pixel x y := by
  unfold Img.getpixel
  rw [if_pos ⟨by omega, by exact_mod_cast hx, by omega, by exact_mod_cast hy⟩]
  simp

/-! ## The success path of rearrange_tiles -/

/-- Success-path characterisation of `rearrange_tiles`: with positive tile
dimensions dividing the image exactly and an ordering that is a
permutation of `[0, R*C)`, the call succeeds, preserves size and mode,
and the destination rectangle of grid position `(rr, cc)` holds,
pixel for pixel, the source tile whose row-major index the ordering
assigns to flat position `rr*C + cc`. -/
lemma rearrange_pixel_spec (img : Img) (tW tH : Int) (ord : List Int) (Rn Cn : Nat)
    (htw : 0 < tW) (hth : 0 < tH)
    (hW : img.width = Cn * tW.toNat) (hH : img.height = Rn * tH.toNat)
    (hlen : ord.length = Rn * Cn) (hnd : ord.Nodup)
    (hrange : ∀ v ∈ ord, 0 ≤ v ∧ v < ((Rn * Cn : Nat) : Int)) :
    ∃ out, rearrange_tiles img (tW, tH) ord = .ok out ∧
      out.width = img.width ∧ out.height = img.height ∧ out.mode = img.mode ∧
      ∀ rr cc dx dy, rr < Rn → cc < Cn → dx < tW.toNat → dy < tH.toNat →
        out.pixel (cc * tW.toNat + dx) (rr * tH.toNat + dy) =
          img.pixel ((ord.getD (rr * Cn + cc) 0).toNat % Cn * tW.toNat + dx)
            ((ord.getD (rr * Cn + cc) 0).toNat / Cn * tH.toNat + dy) := by
  have hvalid : valid_input ((img.width : Int), (img.height : Int)) (tW, tH) ord = .ok true := by
    rw [hW, hH, valid_input_ok_iff _ _ _ _ _ (by omega) (by omega)]
    refine ⟨natMul_fmod Cn tW htw, natMul_fmod Rn tH hth, hnd, ?_⟩
    rw [natMul_fdiv Rn tH hth, natMul_fdiv Cn tW htw, hlen]
    push_cast
    ring
  have hRt : (Int.fdiv (img.height : Int) tH).toNat = Rn := by
    rw [hH, natMul_fdiv Rn tH hth]
    simp
  have hCt : (Int.fdiv (img.width : Int) tW).toNat = Cn := by
    rw [hW, natMul_fdiv Cn tW htw]
    simp
  have hrun : rearrange_tiles img (tW, tH) ord =
      stitch (extractTiles img tW tH Rn Cn) ord tW tH Cn
        (Image.new img.mode img.width img.height) (destPositions Rn Cn) := by
    simp only [rearrange_tiles, hvalid]
    rw [if_neg (by simp), hRt, hCt]
  have hlen_tiles : (extractTiles img tW tH Rn Cn).length = Rn * Cn :=
    extractTiles_length img tW tH Rn Cn
  have hget_mem : ∀ i, i < Rn * Cn → ord.getD i 0 ∈ ord := by
    intro i hi
    rw [List.getD_eq_getElem _ _ (by omega)]
    exact List.getElem_mem _
  have hacc : ∀ p ∈ destPositions Rn Cn,
      p.1 * Cn + p.2 < (extractTiles img tW tH Rn Cn).length ∧
      p.1 * Cn + p.2 < ord.length ∧
      0 ≤ ord.getD (p.1 * Cn + p.2) 0 ∧
      ord.getD (p.1 * Cn + p.2) 0 < ((extractTiles img tW tH Rn Cn).length : Int) := by
    intro p hp
    obtain ⟨hpr, hpc⟩ := (mem_destPositions Rn Cn p).mp hp
    have hi : p.1 * Cn + p.2 < Rn * Cn := grid_index_lt hpr hpc
    have hv := hrange _ (hget_mem _ hi)
    refine ⟨by omega, by omega, hv.1, ?_⟩
    rw [hlen_tiles]
    exact hv.2
  refine ⟨stitchPure (extractTiles img tW tH Rn Cn) ord tW tH Cn
    (Image.new img.mode img.width img.height) (destPositions Rn Cn), ?_, ?_, ?_, ?_, ?_⟩
  · rw [hrun]
    exact stitch_eq_pure _ _ _ _ _ _ _ hacc
  · exact (stitchPure_dims _ _ _ _ _ _ _).1
  · exact (stitchPure_dims _ _ _ _ _ _ _).2.1
  · exact (stitchPure_dims _ _ _ _ _ _ _).2.2
  · intro rr cc dx dy hrr hcc hdx hdy
    have htwn : tW = ((tW.toNat : Nat) : Int) := (Int.toNat_of_nonneg htw.le).symm
    have hthn : tH = ((tH.toNat : Nat) : Int) := (Int.toNat_of_nonneg hth.le).symm
    have hvj := hrange _ (hget_mem _ (grid_index_lt hrr hcc))
    have hjlt : (ord.getD (rr * Cn + cc) 0).toNat < Rn * Cn := by omega
    have hj : (ord.getD (rr * Cn + cc) 0).toNat < (extractTiles img tW tH Rn Cn).length := by
      rw [hlen_tiles]
      exact hjlt
    rw [stitchPure_pixel _ _ _ _ _ _ _ htwn hthn (extractTiles_dims img tW tH Rn Cn)
      rr cc dx dy hdx hdy hj (destPositions Rn Cn) _
      ((mem_destPositions _ _ _).mpr ⟨hrr, hcc⟩) (destPositions_nodup _ _)]
    rw [extractTiles_getD img tW tH Rn Cn _ hjlt _]
    show img.getpixel _ _ = _
    have hmod : (ord.getD (rr * Cn + cc) 0).toNat % Cn < Cn := Nat.mod_lt _ (by omega)
    have hdiv : (ord.getD (rr * Cn + cc) 0).toNat / Cn < Rn :=
      (Nat.div_lt_iff_lt_mul (by omega)).mpr (by omega)
    have hxeq : ((((ord.getD (rr * Cn + cc) 0).toNat % Cn : Nat) : Int) * tW + (dx : Int)) =
        (((ord.getD (rr * Cn + cc) 0).toNat % Cn * tW.toNat + dx : Nat) : Int) := by
      push_cast
      rw [Int.toNat_of_nonneg htw.le]
    have hyeq : ((((ord.getD (rr * Cn + cc) 0).toNat / Cn : Nat) : Int) * tH + (dy : Int)) =
        (((ord.getD (rr * Cn + cc) 0).toNat / Cn * tH.toNat + dy : Nat) : Int) := by
      push_cast
      rw [Int.toNat_of_nonneg hth.le]
    rw [hxeq, hyeq]
    apply getpixel_natCast
    · rw [hW]
      exact grid_index_lt hmod hdx
    · rw [hH]
      exact grid_index_lt hdiv hdy

/-- If some visited destination position names a tile index outside
`[0, tLen)`, the reassembly loop performs an access at such an index:
the first out-of-range index reached is always accessed, whether it
wraps (negative but `≥ -tLen`) or raises `IndexError`. -/
lemma stitchAccesses_oob (C tLen : Nat) (ord : List Int) :
    ∀ (ps : List (Nat × Nat)),
      (∀ p ∈ ps, p.1 * C + p.2 < tLen ∧ p.1 * C + p.2 < ord.length) →
      (∃ p ∈ ps, ord.getD (p.1 * C + p.2) 0 < 0 ∨
        (tLen : Int) ≤ ord.getD (p.1 * C + p.2) 0) →
      ∃ v ∈ stitchAccesses C tLen ord ps, v < 0 ∨ (tLen : Int) ≤ v
  | [], _, hex => absurd hex (by simp)
  | (r, c) :: rest, hin, hex => by
    obtain ⟨h1, h2⟩ := hin (r, c) (List.mem_cons_self _ _)
    simp only [stitchAccesses, if_pos h1, pyGet_nat ord (r * C + c) 0 h2]
    by_cases hoob : ord.getD (r * C + c) 0 < 0 ∨ (tLen : Int) ≤ ord.getD (r * C + c) 0
    · by_cases hok : 0 ≤ pyIdx tLen (ord.getD (r * C + c) 0) ∧
          pyIdx tLen (ord.getD (r * C + c) 0) < (tLen : Int)
      · rw [if_pos hok]
        exact ⟨_, List.mem_cons_self _ _, hoob⟩
      · rw [if_neg hok]
        exact ⟨_, List.mem_cons_self _ _, hoob⟩
    · push_neg at hoob
      have hok : 0 ≤ pyIdx tLen (ord.getD (r * C + c) 0) ∧
          pyIdx tLen (ord.getD (r * C + c) 0) < (tLen : Int) := by
        unfold pyIdx
        rw [if_neg (by omega)]
        omega
      rw [if_pos hok]
      obtain ⟨p, hp, hpo⟩ := hex
      rcases List.mem_cons.mp hp with hph | hpt
      · rw [hph] at hpo
        simp only at hpo
        omega
      · obtain ⟨v, hv, ho⟩ := stitchAccesses_oob C tLen ord rest
          (fun q hq => hin q (List.mem_cons_of_mem _ hq)) ⟨p, hpt, hpo⟩
        exact ⟨v, List.mem_cons_of_mem _ hv, ho⟩

/-! ## Concrete test images -/

/-- A 2-by-1 two-tile image whose pixel value equals its x coordinate. -/
def imgTwo : Img := { width := 2, height := 1, mode := "L", pixel := fun x _ => x }

/-- A 3-by-1 three-tile image whose pixel value equals its x coordinate. -/
def imgThree : Img := { width := 3, height := 1, mode := "L", pixel := fun x _ => x }

/-! ## The claims -/

/-- C3: for every image size, tile size with nonzero components and
ordering, `valid_input` returns true iff the tile dimensions divide the
image dimensions exactly, the ordering has no duplicate values, and its
length equals the tile count `(H div th) * (W div tw)`; membership of
the values in `[0, tileCount)` is not required (the right-hand side
imposes no range condition). -/
theorem C3_valid_input_iff (W H tw th : Int) (ord : List Int)
    (htw : tw ≠ 0) (hth : th ≠ 0) :
    valid_input (W, H) (tw, th) ord = .ok true ↔
      (Int.fmod W tw = 0 ∧ Int.fmod H th = 0 ∧ ord.Nodup ∧
        (ord.length : Int) = Int.fdiv H th * Int.fdiv W tw) :=
  valid_input_ok_iff W H tw th ord htw hth

/-- Witness for C3 at image 256x256, tile 128x128, ordering `[0,1,2,3]`. -/
theorem C3_valid_input_iff_witness :
    (128 : Int) ≠ 0 ∧
    (valid_input (256, 256) (128, 128) [0, 1, 2, 3] = .ok true ↔
      (Int.fmod 256 128 = 0 ∧ Int.fmod 256 128 = 0 ∧ ([0, 1, 2, 3] : List Int).Nodup ∧
        (([0, 1, 2, 3] : List Int).length : Int) = Int.fdiv 256 128 * Int.fdiv 256 128)) :=
  ⟨by decide, C3_valid_input_iff 256 256 128 128 [0, 1, 2, 3] (by decide) (by decide)⟩

/-- C10: a tile size with both components strictly negative is accepted by
`valid_input`: with image size (256, 256), tile size (-128, -128) and
ordering `[0,1,2,3]`, both floor divisions yield -2, the tile count is 4
and every check passes — the validator imposes no positivity requirement
on tile dimensions. -/
theorem C10_negative_tile_accepted :
    valid_input (256, 256) (-128, -128) [0, 1, 2, 3] = .ok true := by decide

/-- C8: a tile size with a zero component makes `valid_input` raise
`ZeroDivisionError` while computing the row or column count (lines 21-22),
before either validity check is evaluated — it never returns a boolean —
and the fault propagates uncaught through `rearrange_tiles`. -/
theorem C8_zero_division (sz : Int × Int) (ts : Int × Int) (ord : List Int) (img : Img)
    (h : ts.1 = 0 ∨ ts.2 = 0) :
    valid_input sz ts ord = .error .zeroDivisionError ∧
      rearrange_tiles img ts ord = .error .zeroDivisionError := by
  refine ⟨valid_input_zero sz ts ord h, ?_⟩
  simp only [rearrange_tiles,
    valid_input_zero ((img.width : Int), (img.height : Int)) ts ord h]

/-- Witness for C8 at tile size (0, 128). -/
theorem C8_zero_division_witness :
    (((0 : Int), (128 : Int)).1 = 0 ∨ ((0 : Int), (128 : Int)).2 = 0) ∧
    valid_input (256, 256) (0, 128) [] = .error .zeroDivisionError ∧
    rearrange_tiles imgTwo (0, 128) [] = .error .zeroDivisionError :=
  ⟨Or.inl rfl, (C8_zero_division (256, 256) (0, 128) [] imgTwo (Or.inl rfl)).1,
    (C8_zero_division (256, 256) (0, 128) [] imgTwo (Or.inl rfl)).2⟩

/-- C4: for nonzero tile dimensions, `rearrange_tiles` returns an error
carrying exactly the fixed validation message iff `valid_input` rejects
the input, and any error carrying that message is the `ValueError` of
line 44 — the only error the component itself raises (every other error
is a runtime `IndexError` with a different message). -/
theorem C4_validation_error (img : Img) (tW tH : Int) (ord : List Int)
    (htw : tW ≠ 0) (hth : tH ≠ 0) :
    ((∃ e, rearrange_tiles img (tW, tH) ord = .error e ∧ e.msg = validationMsg) ↔
      valid_input ((img.width : Int), (img.height : Int)) (tW, tH) ord = .ok false) ∧
    (∀ e, rearrange_tiles img (tW, tH) ord = .error e → e.msg = validationMsg →
      e = .valueError validationMsg) := by
  obtain ⟨b, hb⟩ := valid_input_ok_exists (img.width : Int) (img.height : Int) tW tH ord htw hth
  cases b with
  | false =>
    have hre : rearrange_tiles img (tW, tH) ord = .error (.valueError validationMsg) := by
      simp [rearrange_tiles, hb, validationMsg]
    constructor
    · exact ⟨fun _ => hb, fun _ => ⟨_, hre, rfl⟩⟩
    · intro e he _
      rw [hre] at he
      exact (Except.error.inj he).symm
  | true =>
    have hrun : rearrange_tiles img (tW, tH) ord =
        stitch (extractTiles img tW tH (Int.fdiv (img.height : Int) tH).toNat
            (Int.fdiv (img.width : Int) tW).toNat) ord tW tH
          (Int.fdiv (img.width : Int) tW).toNat
          (Image.new img.mode img.width img.height)
          (destPositions (Int.fdiv (img.height : Int) tH).toNat
            (Int.fdiv (img.width : Int) tW).toNat) := by
      simp only [rearrange_tiles, hb]
      rw [if_neg (by simp)]
    constructor
    · constructor
      · rintro ⟨e, he, hm⟩
        rw [hrun] at he
        rw [stitch_error_eq _ _ _ _ _ _ _ _ he] at hm
        exact absurd hm (by decide)
      · intro hfalse
        rw [hb] at hfalse
        exact absurd (Except.ok.inj hfalse) (by decide)
    · intro e he hm
      rw [hrun] at he
      rw [stitch_error_eq _ _ _ _ _ _ _ _ he] at hm
      exact absurd hm (by decide)

/-- Witness for C4 at a rejected input (ordering of wrong length). -/
theorem C4_validation_error_witness :
    (1 : Int) ≠ 0 ∧
    (((∃ e, rearrange_tiles imgTwo (1, 1) [0] = .error e ∧ e.msg = validationMsg) ↔
      valid_input ((imgTwo.width : Int), (imgTwo.height : Int)) (1, 1) [0] = .ok false) ∧
    (∀ e, rearrange_tiles imgTwo (1, 1) [0] = .error e → e.msg = validationMsg →
      e = .valueError validationMsg)) :=
  ⟨by decide, C4_validation_error imgTwo 1 1 [0] (by decide) (by decide)⟩

/-- C7: when validation rejects, `rearrange_tiles` raises the
`ValidationError` with the fixed message; and on every failure path
(any raised error) the write list is empty — no file at `out_path` is
created or modified and no partial file is left behind. -/
theorem C7_no_write_on_failure (img : Img) (ts : Int × Int) (ord : List Int)
    (out_path : String) :
    (valid_input ((img.width : Int), (img.height : Int)) ts ord = .ok false →
      rearrange_tiles img ts ord = .error (.valueError validationMsg)) ∧
    (∀ e, rearrange_tiles img ts ord = .error e →
      rearrange_tiles_writes img ts ord out_path = []) := by
  constructor
  · intro h
    simp [rearrange_tiles, h, validationMsg]
  · intro e he
    unfold rearrange_tiles_writes
    rw [he]

/-- Witness for C7 at a rejected input (ordering of wrong length). -/
theorem C7_no_write_on_failure_witness :
    valid_input ((imgTwo.width : Int), (imgTwo.height : Int)) (1, 1) [0] = .ok false ∧
    rearrange_tiles imgTwo (1, 1) [0] = .error (.valueError validationMsg) ∧
    rearrange_tiles_writes imgTwo (1, 1) [0] "out.png" = [] := by
  have h1 : valid_input ((imgTwo.width : Int), (imgTwo.height : Int)) (1, 1) [0] = .ok false := by
    decide
  refine ⟨h1, (C7_no_write_on_failure imgTwo (1, 1) [0] "out.png").1 h1, ?_⟩
  exact (C7_no_write_on_failure imgTwo (1, 1) [0] "out.png").2 _
    ((C7_no_write_on_failure imgTwo (1, 1) [0] "out.png").1 h1)

/-- C9: every successful call to `rearrange_tiles` yields an output image
with exactly the source image's pixel dimensions and color mode (the
canvas is allocated with `Image.new(img.mode, img.size)` and pasting
never changes dimensions or mode). -/
theorem C9_dims_mode_preserved (img : Img) (ts : Int × Int) (ord : List Int) (out : Img)
    (h : rearrange_tiles img ts ord = .ok out) :
    out.width = img.width ∧ out.height = img.height ∧ out.mode = img.mode := by
  unfold rearrange_tiles at h
  cases hv : valid_input ((img.width : Int), (img.height : Int)) ts ord with
  | error e =>
    simp only [hv] at h
    exact Except.noConfusion h
  | ok b =>
    simp only [hv] at h
    cases b with
    | false => simp at h
    | true =>
      rw [if_neg (by simp)] at h
      exact stitch_dims _ _ _ _ _ _ (Image.new img.mode img.width img.height) _ h

/-- The concrete output of a sample successful rearrangement, used in the
C9 witness. -/
def c9Out : Img :=
  match rearrange_tiles imgTwo (1, 1) [1, 0] with
  | .ok o => o
  | .error _ => Image.new "" 0 0

/-- Witness for C9 at a concrete successful call. -/
theorem C9_dims_mode_preserved_witness :
    rearrange_tiles imgTwo (1, 1) [1, 0] = .ok c9Out ∧
    (c9Out.width = imgTwo.width ∧ c9Out.height = imgTwo.height ∧ c9Out.mode = imgTwo.mode) :=
  ⟨rfl, C9_dims_mode_preserved imgTwo (1, 1) [1, 0] c9Out rfl⟩

/-! ## Identity ordering -/

lemma identityOrdering_length (n : Nat) : (identityOrdering n).length = n := by
  simp [identityOrdering]

lemma identityOrdering_nodup (n : Nat) : (identityOrdering n).Nodup := by
  unfold identityOrdering
  exact List.Nodup.map_on (fun x _ y _ h => by exact_mod_cast h) (List.nodup_range n)

lemma identityOrdering_mem (n : Nat) (v : Int) (h : v ∈ identityOrdering n) :
    0 ≤ v ∧ v < (n : Int) := by
  unfold identityOrdering at h
  obtain ⟨i, hi, rfl⟩ := List.mem_map.mp h
  have := List.mem_range.mp hi
  omega

lemma identityOrdering_getD (n i : Nat) (h : i < n) :
    (identityOrdering n).getD i 0 = (i : Int) := by
  unfold identityOrdering
  rw [List.getD_eq_getElem _ _ (by simpa using h)]
  simp

/-- C2: for every image and every positive tile size that exactly divides
it, rearranging with the identity ordering `[0, 1, ..., tileCount-1]`
produces an output image pixel-for-pixel equal to the source image. -/
theorem C2_identity_roundtrip (img : Img) (tW tH : Int) (Rn Cn : Nat)
    (htw : 0 < tW) (hth : 0 < tH)
    (hW : img.width = Cn * tW.toNat) (hH : img.height = Rn * tH.toNat) :
    ∃ out, rearrange_tiles img (tW, tH) (identityOrdering (Rn * Cn)) = .ok out ∧
      out.pixEq img := by
  obtain ⟨out, hok, hw, hh, hm, hpix⟩ := rearrange_pixel_spec img tW tH
    (identityOrdering (Rn * Cn)) Rn Cn htw hth hW hH
    (identityOrdering_length _) (identityOrdering_nodup _)
    (fun v hv => identityOrdering_mem _ v hv)
  refine ⟨out, hok, hw, hh, hm, ?_⟩
  intro x y hx hy
  rw [hw, hW] at hx
  rw [hh, hH] at hy
  have htwp : 0 < tW.toNat := by omega
  have hthp : 0 < tH.toNat := by omega
  have hdx : x % tW.toNat < tW.toNat := Nat.mod_lt _ htwp
  have hcc : x / tW.toNat < Cn := (Nat.div_lt_iff_lt_mul htwp).mpr (by omega)
  have hdy : y % tH.toNat < tH.toNat := Nat.mod_lt _ hthp
  have hrr : y / tH.toNat < Rn := (Nat.div_lt_iff_lt_mul hthp).mpr (by omega)
  have hxeq : x / tW.toNat * tW.toNat + x % tW.toNat = x := by
    rw [Nat.mul_comm]
    exact Nat.div_add_mod x tW.toNat
  have hyeq : y / tH.toNat * tH.toNat + y % tH.toNat = y := by
    rw [Nat.mul_comm]
    exact Nat.div_add_mod y tH.toNat
  have hkey := hpix (y / tH.toNat) (x / tW.toNat) (x % tW.toNat) (y % tH.toNat) hrr hcc hdx hdy
  rw [identityOrdering_getD _ _ (grid_index_lt hrr hcc), Int.toNat_natCast] at hkey
  have hmod : (y / tH.toNat * Cn + x / tW.toNat) % Cn = x / tW.toNat := by
    rw [Nat.mul_comm, Nat.mul_add_mod, Nat.mod_eq_of_lt hcc]
  have hdiv : (y / tH.toNat * Cn + x / tW.toNat) / Cn = y / tH.toNat := by
    rw [Nat.mul_comm, Nat.mul_add_div (by omega), Nat.div_eq_of_lt hcc]
    omega
  rw [hmod, hdiv, hxeq, hyeq] at hkey
  exact hkey

/-- Witness for C2 on the 2-tile image `imgTwo` with tile size (1, 1). -/
theorem C2_identity_roundtrip_witness :
    (0 : Int) < 1 ∧ imgTwo.width = 2 * (1 : Int).toNat ∧
      imgTwo.height = 1 * (1 : Int).toNat ∧
    ∃ out, rearrange_tiles imgTwo (1, 1) (identityOrdering (1 * 2)) = .ok out ∧
      out.pixEq imgTwo :=
  ⟨by decide, by decide, by decide,
    C2_identity_roundtrip imgTwo 1 1 1 2 (by decide) (by decide) (by decide) (by decide)⟩

/-- C1 counterexample: with image `imgTwo` (2 by 1, two tiles), tile size
(1, 1) and ordering `[2, 3]`, `valid_input` accepts the ordering (correct
length 2, no duplicates), yet `rearrange_tiles` raises `IndexError` and
produces no output image at all, refuting the claim for orderings that
are merely accepted by `valid_input`. -/
theorem C1_counterexample :
    valid_input ((imgTwo.width : Int), (imgTwo.height : Int)) (1, 1) [2, 3] = .ok true ∧
    rearrange_tiles imgTwo (1, 1) [2, 3] = .error .indexError :=
  ⟨by decide, rfl⟩

/-- C1 (amended): for every image exactly divided by a positive tile size
and every ordering accepted by `valid_input` all of whose values lie in
`[0, tileCount)`, `rearrange_tiles` produces an output image in which the
destination tile at grid position `(rr, cc)` (row-major flat index
`i = rr*C + cc`) is pixel for pixel the source tile of row-major index
`ordering[i]`, source tile `j` being the rectangle with left
`(j % C) * tW` and top `(j / C) * tH`. -/
theorem C1_tile_placement (img : Img) (tW tH : Int) (ord : List Int) (Rn Cn : Nat)
    (htw : 0 < tW) (hth : 0 < tH)
    (hW : img.width = Cn * tW.toNat) (hH : img.height = Rn * tH.toNat)
    (hvalid : valid_input ((img.width : Int), (img.height : Int)) (tW, tH) ord = .ok true)
    (hrange : ∀ v ∈ ord, 0 ≤ v ∧ v < ((Rn * Cn : Nat) : Int)) :
    ∃ out, rearrange_tiles img (tW, tH) ord = .ok out ∧
      ∀ rr cc dx dy, rr < Rn → cc < Cn → dx < tW.toNat → dy < tH.toNat →
        out.pixel (cc * tW.toNat + dx) (rr * tH.toNat + dy) =
          img.pixel ((ord.getD (rr * Cn + cc) 0).toNat % Cn * tW.toNat + dx)
            ((ord.getD (rr * Cn + cc) 0).toNat / Cn * tH.toNat + dy) := by
  have hiff := (valid_input_ok_iff (img.width : Int) (img.height : Int) tW tH ord
    (by omega) (by omega)).mp hvalid
  have hlen : ord.length = Rn * Cn := by
    have h4 := hiff.2.2.2
    rw [hH, natMul_fdiv Rn tH hth, hW, natMul_fdiv Cn tW htw] at h4
    exact_mod_cast h4
  obtain ⟨out, hok, _, _, _, hpix⟩ :=
    rearrange_pixel_spec img tW tH ord Rn Cn htw hth hW hH hlen hiff.2.2.1 hrange
  exact ⟨out, hok, hpix⟩

/-- Witness for C1 (amended) on `imgTwo` with the swap ordering `[1, 0]`. -/
theorem C1_tile_placement_witness :
    valid_input ((imgTwo.width : Int), (imgTwo.height : Int)) (1, 1) [1, 0] = .ok true ∧
    (∀ v ∈ ([1, 0] : List Int), 0 ≤ v ∧ v < ((1 * 2 : Nat) : Int)) ∧
    ∃ out, rearrange_tiles imgTwo (1, 1) [1, 0] = .ok out ∧
      ∀ rr cc dx dy, rr < 1 → cc < 2 → dx < (1 : Int).toNat → dy < (1 : Int).toNat →
        out.pixel (cc * (1 : Int).toNat + dx) (rr * (1 : Int).toNat + dy) =
          imgTwo.pixel ((([1, 0] : List Int).getD (rr * 2 + cc) 0).toNat % 2 *
              (1 : Int).toNat + dx)
            ((([1, 0] : List Int).getD (rr * 2 + cc) 0).toNat / 2 * (1 : Int).toNat + dy) :=
  ⟨by decide, by decide,
    C1_tile_placement imgTwo 1 1 [1, 0] 1 2 (by decide) (by decide) (by decide) (by decide)
      (by decide) (by decide)⟩

/-- C5: an ordering of the correct length with no duplicates whose values
include one outside `[0, tileCount)` — whether negative or at least
`tileCount` — passes `valid_input`, and the reassembly loop of
`rearrange_tiles` then subscripts the extracted tile sequence at an
index outside `[0, tileCount)`. -/
theorem C5_oob_access (img : Img) (tW tH : Int) (ord : List Int) (Rn Cn : Nat)
    (htw : 0 < tW) (hth : 0 < tH)
    (hW : img.width = Cn * tW.toNat) (hH : img.height = Rn * tH.toNat)
    (hlen : ord.length = Rn * Cn) (hnd : ord.Nodup)
    (hoob : ∃ v ∈ ord, v < 0 ∨ ((Rn * Cn : Nat) : Int) ≤ v) :
    valid_input ((img.width : Int), (img.height : Int)) (tW, tH) ord = .ok true ∧
    ∃ v ∈ reassemblyTileAccesses img (tW, tH) ord,
      v < 0 ∨ ((Rn * Cn : Nat) : Int) ≤ v := by
  have hvalid : valid_input ((img.width : Int), (img.height : Int)) (tW, tH) ord = .ok true := by
    rw [hW, hH, valid_input_ok_iff _ _ _ _ _ (by omega) (by omega)]
    refine ⟨natMul_fmod Cn tW htw, natMul_fmod Rn tH hth, hnd, ?_⟩
    rw [natMul_fdiv Rn tH hth, natMul_fdiv Cn tW htw, hlen]
    push_cast
    ring
  refine ⟨hvalid, ?_⟩
  have hRt : (Int.fdiv (img.height : Int) tH).toNat = Rn := by
    rw [hH, natMul_fdiv Rn tH hth]
    simp
  have hCt : (Int.fdiv (img.width : Int) tW).toNat = Cn := by
    rw [hW, natMul_fdiv Cn tW htw]
    simp
  have hra : reassemblyTileAccesses img (tW, tH) ord =
      stitchAccesses Cn (Rn * Cn) ord (destPositions Rn Cn) := by
    simp only [reassemblyTileAccesses]
    rw [hRt, hCt, extractTiles_length]
  rw [hra]
  obtain ⟨v, hv, hvo⟩ := hoob
  obtain ⟨n, hn⟩ := List.mem_iff_get.mp hv
  have hk : n.1 < Rn * Cn := by rw [← hlen]; exact n.2
  have hCpos : 0 < Cn := by
    rcases Nat.eq_zero_or_pos Cn with h0 | h
    · rw [h0, Nat.mul_zero] at hk
      omega
    · exact h
  have hdivk : n.1 / Cn < Rn := (Nat.div_lt_iff_lt_mul hCpos).mpr hk
  have hmodk : n.1 % Cn < Cn := Nat.mod_lt _ hCpos
  have hflat : n.1 / Cn * Cn + n.1 % Cn = n.1 := by
    rw [Nat.mul_comm]
    exact Nat.div_add_mod n.1 Cn
  apply stitchAccesses_oob
  · intro p hp
    obtain ⟨hpr, hpc⟩ := (mem_destPositions Rn Cn p).mp hp
    have := grid_index_lt hpr hpc
    constructor
    · exact this
    · omega
  · refine ⟨(n.1 / Cn, n.1 % Cn), (mem_destPositions Rn Cn _).mpr ⟨hdivk, hmodk⟩, ?_⟩
    show ord.getD (n.1 / Cn * Cn + n.1 % Cn) 0 < 0 ∨ _
    rw [hflat, List.getD_eq_getElem _ _ n.2]
    have : ord[n.1] = v := by
      rw [← hn]
      simp
    rw [this]
    exact hvo

/-- Witness for C5 on `imgTwo` with the out-of-range ordering `[2, 3]`. -/
theorem C5_oob_access_witness :
    ([2, 3] : List Int).Nodup ∧
    (∃ v ∈ ([2, 3] : List Int), v < 0 ∨ ((1 * 2 : Nat) : Int) ≤ v) ∧
    valid_input ((imgTwo.width : Int), (imgTwo.height : Int)) (1, 1) [2, 3] = .ok true ∧
    ∃ v ∈ reassemblyTileAccesses imgTwo (1, 1) [2, 3],
      v < 0 ∨ ((1 * 2 : Nat) : Int) ≤ v := by
  have h := C5_oob_access imgTwo 1 1 [2, 3] 1 2 (by decide) (by decide) (by decide)
    (by decide) (by decide) (by decide) (by decide)
  exact ⟨by decide, by decide, h.1, h.2⟩

/-! ## Composition of orderings -/

lemma composeOrderings_length (f g : List Int) :
    (composeOrderings f g).length = g.length := by
  simp [composeOrderings]

lemma composeOrderings_getD (f g : List Int) (i : Nat) (h : i < g.length) :
    (composeOrderings f g).getD i 0 = f.getD (g.getD i 0).toNat 0 := by
  unfold composeOrderings
  rw [List.getD_eq_getElem _ _ (by simpa using h), List.getElem_map,
    List.getD_eq_getElem _ _ h]

lemma composeOrderings_mem (f g : List Int) (n : Nat)
    (hflen : f.length = n)
    (hrangef : ∀ v ∈ f, 0 ≤ v ∧ v < (n : Int))
    (hrangeg : ∀ v ∈ g, 0 ≤ v ∧ v < (n : Int)) :
    ∀ v ∈ composeOrderings f g, 0 ≤ v ∧ v < (n : Int) := by
  intro v hv
  unfold composeOrderings at hv
  obtain ⟨j, hj, rfl⟩ := List.mem_map.mp hv
  have hjr := hrangeg j hj
  have hjlt : j.toNat < f.length := by omega
  rw [List.getD_eq_getElem _ _ hjlt]
  exact hrangef _ (List.getElem_mem hjlt)

lemma composeOrderings_nodup (f g : List Int) (n : Nat)
    (hflen : f.length = n) (hndf : f.Nodup) (hndg : g.Nodup)
    (hrangeg : ∀ v ∈ g, 0 ≤ v ∧ v < (n : Int)) :
    (composeOrderings f g).Nodup := by
  unfold composeOrderings
  refine List.Nodup.map_on ?_ hndg
  intro x hx y hy hxy
  have hxr := hrangeg x hx
  have hyr := hrangeg y hy
  have hxlt : x.toNat < f.length := by omega
  have hylt : y.toNat < f.length := by omega
  rw [List.getD_eq_getElem _ _ hxlt, List.getD_eq_getElem _ _ hylt] at hxy
  have := hndf.getElem_inj_iff.mp hxy
  omega

/-- Orderings used in the C6 counterexample, over three tiles. -/
def ordA : List Int := [1, 2, 0]

/-- Second ordering of the C6 counterexample. -/
def ordB : List Int := [0, 2, 1]

/-- C6 counterexample: on the 3-tile image `imgThree`, applying `ordA`
then `ordB` yields pixel row (1, 0, 2), while a single rearrangement
with the standard composition B∘A (pointwise `i ↦ B[A[i]]`, here
`composeOrderings ordB ordA = [2, 1, 0]`) yields (2, 1, 0): the results
differ already at pixel (0, 0), so the composed ordering is A∘B, not
B∘A as the claim states. -/
theorem C6_counterexample :
    ((rearrange_tiles imgThree (1, 1) ordA).bind fun o1 =>
      rearrange_tiles o1 (1, 1) ordB).map (fun o => o.pixel 0 0) ≠
    (rearrange_tiles imgThree (1, 1) (composeOrderings ordB ordA)).map
      (fun o => o.pixel 0 0) := by
  intro h
  rw [show ((rearrange_tiles imgThree (1, 1) ordA).bind fun o1 =>
      rearrange_tiles o1 (1, 1) ordB).map (fun o => o.pixel 0 0) = .ok 1 from rfl] at h
  rw [show (rearrange_tiles imgThree (1, 1) (composeOrderings ordB ordA)).map
      (fun o => o.pixel 0 0) = .ok 2 from rfl] at h
  exact absurd (Except.ok.inj h) (by decide)

/-- C6 (amended): for every image exactly divided by a positive tile size
and any two valid permutations A and B of the tile count, rearranging
with A and then rearranging the result with B yields the same image,
pixel for pixel, as a single rearrangement with the composed ordering
A∘B — the ordering `i ↦ A[B[i]]`, `composeOrderings A B` — rather than
B∘A as claimed (refuted by `C6_counterexample`). -/
theorem C6_composition (img : Img) (tW tH : Int) (A B : List Int) (Rn Cn : Nat)
    (htw : 0 < tW) (hth : 0 < tH)
    (hW : img.width = Cn * tW.toNat) (hH : img.height = Rn * tH.toNat)
    (hlenA : A.length = Rn * Cn) (hndA : A.Nodup)
    (hrangeA : ∀ v ∈ A, 0 ≤ v ∧ v < ((Rn * Cn : Nat) : Int))
    (hlenB : B.length = Rn * Cn) (hndB : B.Nodup)
    (hrangeB : ∀ v ∈ B, 0 ≤ v ∧ v < ((Rn * Cn : Nat) : Int)) :
    ∃ out1 out2 out3,
      rearrange_tiles img (tW, tH) A = .ok out1 ∧
      rearrange_tiles out1 (tW, tH) B = .ok out2 ∧
      rearrange_tiles img (tW, tH) (composeOrderings A B) = .ok out3 ∧
      out2.pixEq out3 := by
  obtain ⟨out1, hok1, hw1, hh1, hm1, hpix1⟩ :=
    rearrange_pixel_spec img tW tH A Rn Cn htw hth hW hH hlenA hndA hrangeA
  obtain ⟨out2, hok2, hw2, hh2, hm2, hpix2⟩ :=
    rearrange_pixel_spec out1 tW tH B Rn Cn htw hth (by rw [hw1, hW]) (by rw [hh1, hH])
      hlenB hndB hrangeB
  obtain ⟨out3, hok3, hw3, hh3, hm3, hpix3⟩ :=
    rearrange_pixel_spec img tW tH (composeOrderings A B) Rn Cn htw hth hW hH
      (by rw [composeOrderings_length, hlenB])
      (composeOrderings_nodup A B (Rn * Cn) hlenA hndA hndB hrangeB)
      (composeOrderings_mem A B (Rn * Cn) hlenA hrangeA hrangeB)
  refine ⟨out1, out2, out3, hok1, hok2, hok3, ?_, ?_, ?_, ?_⟩
  · rw [hw2, hw1, hw3]
  · rw [hh2, hh1, hh3]
  · rw [hm2, hm1, hm3]
  · intro x y hx hy
    rw [hw2, hw1, hW] at hx
    rw [hh2, hh1, hH] at hy
    have htwp : 0 < tW.toNat := by omega
    have hthp : 0 < tH.toNat := by omega
    have hdx : x % tW.toNat < tW.toNat := Nat.mod_lt _ htwp
    have hcc : x / tW.toNat < Cn := (Nat.div_lt_iff_lt_mul htwp).mpr (by omega)
    have hdy : y % tH.toNat < tH.toNat := Nat.mod_lt _ hthp
    have hrr : y / tH.toNat < Rn := (Nat.div_lt_iff_lt_mul hthp).mpr (by omega)
    have hxeq : x / tW.toNat * tW.toNat + x % tW.toNat = x := by
      rw [Nat.mul_comm]
      exact Nat.div_add_mod x tW.toNat
    have hyeq : y / tH.toNat * tH.toNat + y % tH.toNat = y := by
      rw [Nat.mul_comm]
      exact Nat.div_add_mod y tH.toNat
    have hkey2 := hpix2 (y / tH.toNat) (x / tW.toNat) (x % tW.toNat) (y % tH.toNat)
      hrr hcc hdx hdy
    have hkey3 := hpix3 (y / tH.toNat) (x / tW.toNat) (x % tW.toNat) (y % tH.toNat)
      hrr hcc hdx hdy
    rw [hxeq, hyeq] at hkey2 hkey3
    have hilt : y / tH.toNat * Cn + x / tW.toNat < Rn * Cn := grid_index_lt hrr hcc
    have hmemB : B.getD (y / tH.toNat * Cn + x / tW.toNat) 0 ∈ B := by
      rw [List.getD_eq_getElem _ _
        (show y / tH.toNat * Cn + x / tW.toNat < B.length by rw [hlenB]; exact hilt)]
      exact List.getElem_mem _
    have hjBv := hrangeB _ hmemB
    have hjBlt : (B.getD (y / tH.toNat * Cn + x / tW.toNat) 0).toNat < Rn * Cn := by
      have h2 := hjBv.2
      rw [← Int.toNat_of_nonneg hjBv.1] at h2
      exact_mod_cast h2
    have hCpos : 0 < Cn := lt_of_le_of_lt (Nat.zero_le _) hcc
    have hjBdiv : (B.getD (y / tH.toNat * Cn + x / tW.toNat) 0).toNat / Cn < Rn :=
      (Nat.div_lt_iff_lt_mul hCpos).mpr hjBlt
    have hjBmod : (B.getD (y / tH.toNat * Cn + x / tW.toNat) 0).toNat % Cn < Cn :=
      Nat.mod_lt _ hCpos
    have hkey1 := hpix1 ((B.getD (y / tH.toNat * Cn + x / tW.toNat) 0).toNat / Cn)
      ((B.getD (y / tH.toNat * Cn + x / tW.toNat) 0).toNat % Cn)
      (x % tW.toNat) (y % tH.toNat) hjBdiv hjBmod hdx hdy
    have hflat : (B.getD (y / tH.toNat * Cn + x / tW.toNat) 0).toNat / Cn * Cn +
        (B.getD (y / tH.toNat * Cn + x / tW.toNat) 0).toNat % Cn =
        (B.getD (y / tH.toNat * Cn + x / tW.toNat) 0).toNat := by
      rw [Nat.mul_comm]
      exact Nat.div_add_mod _ Cn
    rw [hflat] at hkey1
    rw [composeOrderings_getD A B _ (by rw [hlenB]; exact hilt)] at hkey3
    rw [hkey2, hkey1, hkey3]

/-- Witness for C6 (amended) on `imgThree` with `ordA` and `ordB`. -/
theorem C6_composition_witness :
    ordA.Nodup ∧ ordB.Nodup ∧
    ∃ out1 out2 out3,
      rearrange_tiles imgThree (1, 1) ordA = .ok out1 ∧
      rearrange_tiles out1 (1, 1) ordB = .ok out2 ∧
      rearrange_tiles imgThree (1, 1) (composeOrderings ordA ordB) = .ok out3 ∧
      out2.pixEq out3 :=
  ⟨by decide, by decide,
    C6_composition imgThree 1 1 ordA ordB 1 3 (by decide) (by decide) (by decide)
      (by decide) (by decide) (by decide) (by decide) (by decide) (by decide) (by decide)⟩
